import Mathlib

/-!
Shallow embedding of the go-word-extractor legacy (.doc) extraction core
and its text filters, with theorems checking the specification's claims.

Byte buffers are modelled as `List Nat` (one entry per byte), decoded text
as `List Char` (one entry per Go rune).  Functions that the Go code writes
with in-place mutation are modelled by explicit state passing; reads that
Go performs with panicking slice indexing are modelled with `Option` /
`Except` results.
-/

namespace WordExtractor

/-! ## Little-endian byte reads (binary.LittleEndian.Uint16 / Uint32) -/

def readU16? (b : List Nat) (off : Nat) : Option Nat := do
  let b0 ← b[off]?
  let b1 ← b[off + 1]?
  some (b0 + 256 * b1)

def readU32? (b : List Nat) (off : Nat) : Option Nat := do
  let b0 ← b[off]?
  let b1 ← b[off + 1]?
  let b2 ← b[off + 2]?
  let b3 ← b[off + 3]?
  some (b0 + 256 * b1 + 65536 * b2 + 16777216 * b3)

/-! ## filters.go: character tables and decoding helpers -/

/-- binaryToUnicodeTable: Windows-1252 0x80..0x9F region mapping (filters.go). -/
def binaryToUnicodeTable (r : Char) : Option Char :=
  if r = '\u0082' then some '\u201A'
  else if r = '\u0083' then some '\u0192'
  else if r = '\u0084' then some '\u201E'
  else if r = '\u0085' then some '\u2026'
  else if r = '\u0086' then some '\u2020'
  else if r = '\u0087' then some '\u2021'
  else if r = '\u0088' then some '\u02C6'
  else if r = '\u0089' then some '\u2030'
  else if r = '\u008a' then some '\u0160'
  else if r = '\u008b' then some '\u2039'
  else if r = '\u008c' then some '\u0152'
  else if r = '\u008e' then some '\u017D'
  else if r = '\u0091' then some '\u2018'
  else if r = '\u0092' then some '\u2019'
  else if r = '\u0093' then some '\u201C'
  else if r = '\u0094' then some '\u201D'
  else if r = '\u0095' then some '\u2022'
  else if r = '\u0096' then some '\u2013'
  else if r = '\u0097' then some '\u2014'
  else if r = '\u0098' then some '\u02DC'
  else if r = '\u0099' then some '\u2122'
  else if r = '\u009a' then some '\u0161'
  else if r = '\u009b' then some '\u203A'
  else if r = '\u009c' then some '\u0153'
  else if r = '\u009e' then some '\u017E'
  else if r = '\u009f' then some '\u0178'
  else none

/-- binaryToUnicode: each byte becomes the code point of equal value, then the
0x80..0x9F table is applied (filters.go binaryToUnicode composed with the
byte-to-rune conversion in writePieces). -/
def binaryToUnicode (bytes : List Nat) : List Char :=
  bytes.map (fun b =>
    let r := Char.ofNat b
    match binaryToUnicodeTable r with
    | some repl => repl
    | none => r)

/-- Pair up bytes little-endian into 16-bit units (binary.Read into []uint16). -/
def pairBytes : List Nat → List Nat
  | b0 :: b1 :: rest => (b0 + 256 * b1) :: pairBytes rest
  | _ => []

/-- utf16.Decode: surrogate pairs combine, unpaired surrogates become U+FFFD. -/
def utf16Decode : List Nat → List Char
  | [] => []
  | [u] =>
    if 0xD800 ≤ u ∧ u < 0xE000 then ['\uFFFD'] else [Char.ofNat u]
  | u :: v :: rest =>
    if 0xD800 ≤ u ∧ u < 0xDC00 then
      if 0xDC00 ≤ v ∧ v < 0xE000 then
        Char.ofNat (0x10000 + (u - 0xD800) * 0x400 + (v - 0xDC00)) :: utf16Decode rest
      else
        '\uFFFD' :: utf16Decode (v :: rest)
    else if 0xDC00 ≤ u ∧ u < 0xE000 then
      '\uFFFD' :: utf16Decode (v :: rest)
    else
      Char.ofNat u :: utf16Decode (v :: rest)

/-! ## Data model (word-ole-extractor) -/

structure Piece where
  startCp : Nat
  startStream : Nat
  totLength : Nat
  startFilePos : Nat
  unicode : Bool
  bpc : Nat
  size : Nat
  text : List Char
  length : Nat
  endCp : Nat
  endStream : Nat
  endFilePos : Nat
  deriving Repr, DecidableEq

structure Boundaries where
  fcMin : Nat
  ccpText : Nat
  ccpFtn : Nat
  ccpHdd : Nat
  ccpAtn : Nat
  ccpEdn : Nat
  ccpTxbx : Nat
  ccpHdrTxbx : Nat
  deriving Repr, DecidableEq

structure TaggedHeader where
  type : String
  text : List Char
  deriving Repr, DecidableEq

/-- Boundaries decoded from the FIB fixed offsets (extractWordDocument). -/
def boundariesOf (buffer : List Nat) : Option Boundaries := do
  let fcMin ← readU32? buffer 0x0018
  let ccpText ← readU32? buffer 0x004C
  let ccpFtn ← readU32? buffer 0x0050
  let ccpHdd ← readU32? buffer 0x0054
  let ccpAtn ← readU32? buffer 0x005C
  let ccpEdn ← readU32? buffer 0x0060
  let ccpTxbx ← readU32? buffer 0x0064
  let ccpHdrTxbx ← readU32? buffer 0x0068
  some ⟨fcMin, ccpText, ccpFtn, ccpHdd, ccpAtn, ccpEdn, ccpTxbx, ccpHdrTxbx⟩

def ccpSum (b : Boundaries) : Nat :=
  b.ccpText + b.ccpFtn + b.ccpHdd + b.ccpAtn + b.ccpEdn + b.ccpTxbx + b.ccpHdrTxbx

/-! ## writePieces -/

/-- Decode a piece descriptor fc word: bit 0x40000000 selects Windows-1252
with halved offset, otherwise UCS-2 with the offset unchanged. -/
def decodeFc (fc : Nat) : Bool × Nat :=
  if fc &&& 0x40000000 ≠ 0 then (false, (fc &&& 0xBFFFFFFF) / 2) else (true, fc)

/-- One iteration body of the writePieces loop: build a Piece from its
descriptor data, slicing the WordDocument stream for the text.
Returns none where the Go code would index out of the buffer. -/
def buildPiece (buffer : List Nat) (startCp startStream fc totLength : Nat) :
    Option Piece :=
  let dec := decodeFc fc
  let unicode := dec.1
  let startFilePos := dec.2
  let bpc := if unicode then 2 else 1
  let size := bpc * totLength
  if buffer.length < startFilePos + size then none else
  let textBuffer := (buffer.drop startFilePos).take size
  let text := if unicode then utf16Decode (pairBytes textBuffer) else binaryToUnicode textBuffer
  some { startCp := startCp, startStream := startStream, totLength := totLength,
         startFilePos := startFilePos, unicode := unicode, bpc := bpc, size := size,
         text := text, length := text.length, endCp := startCp + text.length,
         endStream := startStream + size, endFilePos := startFilePos + size }

/-- Skip initial property-modifier entries in the clx (writePieces): while the
byte at pos equals 1, advance by 3 plus the 16-bit length that follows. -/
def skipFlags (tbl : List Nat) : Nat → Nat → Except String Nat
  | 0, _ => .error "index out of range"
  | fuel + 1, pos =>
    match tbl[pos]? with
    | none => .error "index out of range"
    | some b =>
      if b = 1 then
        match readU16? tbl (pos + 1) with
        | none => .error "index out of range"
        | some k => skipFlags tbl fuel (pos + 3 + k)
      else .ok pos

def writePiecesLoop (buffer tbl : List Nat) (pos n : Nat) :
    Nat → Nat → Nat → Nat → Except String (List Piece)
  | 0, _, _, _ => .ok []
  | r + 1, x, startCp, startStream =>
    let offset := pos + (n + 1) * 4 + x * 8 + 2
    match readU32? tbl offset, readU32? tbl (pos + x * 4), readU32? tbl (pos + (x + 1) * 4) with
    | some fc, some lStart, some lEnd =>
      let totLength := (lEnd + 4294967296 - lStart) % 4294967296
      match buildPiece buffer startCp startStream fc totLength with
      | none => .error "index out of range"
      | some p =>
        match writePiecesLoop buffer tbl pos n r (x + 1) p.endCp p.endStream with
        | .ok ps => .ok (p :: ps)
        | .error e => .error e
    | _, _, _ => .error "index out of range"

/-- writePieces: decode the piece table from the table stream and build the
piece sequence (word-ole-extractor writePieces). -/
def writePieces (buffer tableBuffer : List Nat) : Except String (List Piece) :=
  match readU32? buffer 0x01A2 with
  | none => .error "index out of range"
  | some pos0 =>
    match skipFlags tableBuffer (tableBuffer.length + 1) pos0 with
    | .error e => .error e
    | .ok pos1 =>
      match tableBuffer[pos1]? with
      | none => .error "index out of range"
      | some b =>
        if b ≠ 2 then .error "corrupted Word file" else
        match readU32? tableBuffer (pos1 + 1) with
        | none => .error "index out of range"
        | some pieceTableSize =>
          let pos := pos1 + 1 + 4
          let n := ((pieceTableSize + 4294967296 - 4) % 4294967296) / 12
          writePiecesLoop buffer tableBuffer pos n n 0 0 0

/-! ## Region slicer (getPieceIndexByCP / getTextRangeByCP) -/

/-- Linear scan of getPieceIndexByCP: index of the first piece with
position less than or equal to its EndCp. -/
def findPieceIdx (position : Nat) : List Piece → Option Nat
  | [] => none
  | p :: ps =>
    if position ≤ p.endCp then some 0 else (findPieceIdx position ps).map (· + 1)

/-- getPieceIndexByCP: falls back to the last index when no piece matches. -/
def getPieceIndexByCP (pieces : List Piece) (position : Nat) : Nat :=
  (findPieceIdx position pieces).getD (pieces.length - 1)

/-- The slice of piece number i contributed to getTextRangeByCP(start, e),
mirroring the loop body: the start piece begins at start - StartCp (the Go
code clamps a negative xstart to 0, which Nat subtraction does here), the
end piece stops at e - StartCp clamped to the rune count, and the piece is
skipped entirely when xstart is not below the rune count. -/
def sliceAt (pieces : List Piece) (sp ep start e i : Nat) : List Char :=
  match pieces[i]? with
  | none => []
  | some p =>
    let xstart := if i = sp then start - p.startCp else 0
    let xend := if i = ep then e - p.startCp else p.length
    let xend := min xend p.text.length
    if xstart < p.text.length then (p.text.take xend).drop xstart else []

/-- getTextRangeByCP: concatenate the slices of the pieces from the start
piece to the end piece. -/
def getTextRangeByCP (pieces : List Piece) (start e : Nat) : List Char :=
  let sp := getPieceIndexByCP pieces start
  let ep := getPieceIndexByCP pieces e
  ((List.range (ep + 1 - sp)).map (fun k => sliceAt pieces sp ep start e (sp + k))).flatten

/-- The whole decoded text: concatenation of all piece texts in order. -/
def fullText (pieces : List Piece) : List Char :=
  (pieces.map (fun p => p.text)).flatten

/-! ## Piece mutation (fillPieceRange and friends) -/

/-- fillPieceRange: replace the CP range [start, e) of one piece, clipped to
the piece, with repeated copies of a replacement string. -/
def fillPieceRange (piece : Piece) (start e : Nat) (character : List Char) : Piece :=
  let pieceStart := piece.startCp
  let pieceEnd := pieceStart + piece.length
  let start := max start pieceStart
  let e := min e pieceEnd
  let runes := piece.text
  let startIdx := start - pieceStart
  let endIdx := e - pieceStart
  let result :=
    (if 0 < startIdx then runes.take startIdx else []) ++
    (List.replicate (e - start) character).flatten ++
    (if endIdx < runes.length then runes.drop endIdx else [])
  { piece with text := result }

/-- fillPieceRangeByFilePos: same with file-byte positions, converting byte
offsets to rune indices by dividing by Bpc. -/
def fillPieceRangeByFilePos (piece : Piece) (start e : Nat) (character : List Char) : Piece :=
  let pieceStart := piece.startFilePos
  let pieceEnd := pieceStart + piece.size
  let start := max start pieceStart
  let e := min e pieceEnd
  let runes := piece.text
  let startIdx := (start - pieceStart) / piece.bpc
  let endIdx := (e - pieceStart) / piece.bpc
  let result :=
    (if 0 < startIdx then runes.take startIdx else []) ++
    (List.replicate ((e - start) / piece.bpc) character).flatten ++
    (if endIdx < runes.length then runes.drop endIdx else [])
  { piece with text := result }

def replaceSelectedRange (pieces : List Piece) (start e : Nat) (character : List Char) :
    List Piece :=
  let startPiece := getPieceIndexByCP pieces start
  let endPiece := getPieceIndexByCP pieces e
  pieces.mapIdx (fun i p =>
    if startPiece ≤ i ∧ i ≤ endPiece then fillPieceRange p start e character else p)

def findPieceIdxByFilePos (position : Nat) : List Piece → Option Nat
  | [] => none
  | p :: ps =>
    if position ≤ p.endFilePos then some 0 else (findPieceIdxByFilePos position ps).map (· + 1)

def getPieceIndexByFilePos (pieces : List Piece) (position : Nat) : Nat :=
  (findPieceIdxByFilePos position pieces).getD (pieces.length - 1)

def replaceSelectedRangeByFilePos (pieces : List Piece) (start e : Nat) (character : List Char) :
    List Piece :=
  let startPiece := getPieceIndexByFilePos pieces start
  let endPiece := getPieceIndexByFilePos pieces e
  pieces.mapIdx (fun i p =>
    if startPiece ≤ i ∧ i ≤ endPiece then fillPieceRangeByFilePos p start e character else p)

def markDeletedRange (pieces : List Piece) (start e : Nat) : List Piece :=
  replaceSelectedRangeByFilePos pieces start e ['\x00']

/-! ## Header normalizer -/

/-- containsNonWhitespace (filters.go): true when some rune is neither CR,
LF, nor in 0x02..0x08. -/
def containsNonWhitespace (s : List Char) : Bool :=
  s.any (fun r => !(r = '\x0d') && !(r = '\x0a') && !(0x02 ≤ r.toNat && r.toNat ≤ 0x08))

/-- The tag switch of normalizeHeaders, in Go case order. -/
def storyTag (story : Nat) : String :=
  if story < 3 then "footnoteSeparators"
  else if story < 6 then "endSeparators"
  else if story % 6 = 0 || story % 6 = 1 || story % 6 = 4 then "headers"
  else if story % 6 = 2 || story % 6 = 3 || story % 6 = 5 then "footers"
  else ""

/-- The per-story loop of normalizeHeaders: cps are the raw PlcfHdd entries
from index 1 on; limit is offset + CcpHdd. -/
def hdrLoop (offset limit : Nat) :
    Nat → List Piece → Nat → List Nat → List Piece × List TaggedHeader
  | _, pieces, _, [] => (pieces, [])
  | story, pieces, start, cp :: rest =>
    let e := min (offset + cp) limit
    let text := getTextRangeByCP pieces start e
    let tag := storyTag story
    let pieces2 :=
      if !containsNonWhitespace text then replaceSelectedRange pieces start e ['\x00']
      else replaceSelectedRange pieces (e - 1) e ['\x00']
    let rec2 := hdrLoop offset limit (story + 1) pieces2 e rest
    (rec2.1, ⟨tag, text⟩ :: rec2.2)

/-- Read PlcfHdd entries 1..count-1 (32-bit little-endian each). -/
def readCpList (plcHdd : List Nat) : Nat → Nat → Option (List Nat)
  | _, 0 => some []
  | i, r + 1 => do
    let cp ← readU32? plcHdd (i * 4)
    let rest ← readCpList plcHdd (i + 1) r
    some (cp :: rest)

/-- normalizeHeaders: split the headers region per PlcfHdd into tagged
sub-stories and blank out story boundaries (word-ole-extractor). -/
def normalizeHeadersFn (buffer tableBuffer : List Nat) (bnd : Boundaries)
    (pieces : List Piece) : Option (List Piece × List TaggedHeader) := do
  let fcPlcfhdd ← readU32? buffer 0x00F2
  let lcbPlcfhdd ← readU32? buffer 0x00F6
  if lcbPlcfhdd < 8 then some (pieces, []) else do
  let offset := bnd.ccpText + bnd.ccpFtn
  let ccpHdd := bnd.ccpHdd
  if tableBuffer.length < fcPlcfhdd + lcbPlcfhdd then none else do
  let plcHdd := (tableBuffer.drop fcPlcfhdd).take lcbPlcfhdd
  let plcHddCount := lcbPlcfhdd / 4
  let cp0 ← readU32? plcHdd 0
  let cps ← readCpList plcHdd 1 (plcHddCount - 1)
  let start := offset + cp0
  some (hdrLoop offset (offset + ccpHdd) 0 pieces start cps)

/-! ## cleanText (filters.go) -/

/-- replaceTable (filters.go): replacement strings for low control characters.
The 0x1E entry maps to the non-breaking hyphen U+2011. -/
def replaceTable (c : Char) : Option (List Char) :=
  if c = '\x02' then some ['\x00']
  else if c = '\x05' then some ['\x00']
  else if c = '\x07' then some ['\t']
  else if c = '\x08' then some ['\x00']
  else if c = '\x0a' then some ['\n']
  else if c = '\x0b' then some ['\n']
  else if c = '\x0c' then some ['\n']
  else if c = '\x0d' then some ['\n']
  else if c = '\x1e' then some ['\u2011']
  else none

/-- The character class of the first cleanText regex, exactly as written in
the source: 0x02, 0x05, 0x07, 0x08, 0x0a, 0x0b, 0x0c, 0x0d and 0x1f. -/
def cleanMatchClass (c : Char) : Bool :=
  c = '\x02' || c = '\x05' || c = '\x07' || c = '\x08' ||
  c = '\x0a' || c = '\x0b' || c = '\x0c' || c = '\x0d' || c = '\x1f'

/-- First pass of cleanText: characters in the regex class are replaced by
their replaceTable entry, or deleted when the table has none. -/
def cleanStep1 (s : List Char) : List Char :=
  s.flatMap (fun c =>
    if cleanMatchClass c then
      match replaceTable c with
      | some r => r
      | none => []
    else [c])

def isFieldSpecial (c : Char) : Bool := c = '\x13' || c = '\x14' || c = '\x15'

/-- Match the body of the field regex after its leading 0x13: a run of
non-special characters, an optional 0x14 followed by the captured run, then
0x15.  Returns the captured group and the rest of the input. -/
def tryFieldMatch (l : List Char) : Option (List Char × List Char) :=
  match l.dropWhile (fun c => !isFieldSpecial c) with
  | '\x15' :: r => some ([], r)
  | '\x14' :: r2 =>
    match r2.dropWhile (fun c => !isFieldSpecial c) with
    | '\x15' :: r4 => some (r2.takeWhile (fun c => !isFieldSpecial c), r4)
    | _ => none
  | _ => none

/-- One ReplaceAllStringFunc pass of the field regex: leftmost matches are
replaced by their captured group; the Bool records whether any match fired.
The fuel only bounds the scan and is always supplied adequately. -/
def replacePass : Nat → List Char → List Char × Bool
  | _, [] => ([], false)
  | 0, l => (l, false)
  | fuel + 1, c :: rest =>
    if c = '\x13' then
      match tryFieldMatch rest with
      | some (cap, after) =>
        let r := replacePass fuel after
        (cap ++ r.1, true)
      | none =>
        let r := replacePass fuel rest
        (c :: r.1, r.2)
    else
      let r := replacePass fuel rest
      (c :: r.1, r.2)

/-- The called-loop of cleanText: repeat field replacement passes until a
pass finds no match. -/
def fieldLoop : Nat → List Char → List Char
  | 0, s => s
  | fuel + 1, s =>
    let r := replacePass (s.length + 1) s
    if r.2 then fieldLoop fuel r.1 else r.1

/-- cleanText (filters.go): regex replacement of low controls, iterated
field-instruction collapse, then dropping code points at most 0x07. -/
def cleanText (s : List Char) : List Char :=
  let s1 := cleanStep1 s
  let s2 := fieldLoop (s1.length + 1) s1
  s2.filter (fun r => !(r.toNat ≤ 0x07))

/-! ## Unicode punctuation filter and Document accessors -/

/-- filterTable (filters.go): common Unicode punctuation to ASCII. -/
def filterTable (c : Char) : Option (List Char) :=
  if c = '\u2002' then some [' ']
  else if c = '\u2003' then some [' ']
  else if c = '\u2012' then some ['-']
  else if c = '\u2013' then some ['-']
  else if c = '\u2014' then some ['-']
  else if c = '\u2018' then some ['\'']
  else if c = '\u2019' then some ['\'']
  else if c = '\u201C' then some ['"']
  else if c = '\u201D' then some ['"']
  else none

/-- filterText (filters.go): apply filterTable character by character. -/
def filterText (s : List Char) : List Char :=
  s.flatMap (fun r =>
    match filterTable r with
    | some repl => repl
    | none => [r])

/-- Modelled from the spec: the exported Filter function used by the
Document accessors is not under src/; per the spec it applies the
punctuation table character-by-character, which is what filterText does. -/
def Filter (s : List Char) : List Char := filterText s

structure Document where
  body : List Char
  footnotes : List Char
  endnotes : List Char
  headers : List Char
  footers : List Char
  annotations : List Char
  textboxes : List Char
  headerTextboxes : List Char
  deriving Repr, DecidableEq

structure Options where
  filterUnicode : Bool
  includeFooters : Bool
  includeHeadersAndFooters : Bool
  includeBody : Bool
  deriving Repr, DecidableEq

def defaultOptions : Options :=
  { filterUnicode := true, includeFooters := true,
    includeHeadersAndFooters := true, includeBody := true }

/-- Document.GetBody: nil options take the defaults; with FilterUnicode the
body goes through Filter, otherwise it is returned verbatim. -/
def getBody (d : Document) (opts : Option Options) : List Char :=
  let o := opts.getD defaultOptions
  if o.filterUnicode then Filter d.body else d.body

/-! ## FIB validation (extractWordDocument) -/

/-- The magic-number check and table-stream-name selection at the top of
extractWordDocument: bytes 0..1 must read 0xA5EC little-endian, and bit
0x0200 of the 16-bit flags at 0x0A picks the stream named 1Table over
0Table. -/
def checkDocumentHeader (buffer : List Nat) : Except String String :=
  match readU16? buffer 0 with
  | none => .error "index out of range"
  | some magic =>
    if magic ≠ 0xA5EC then .error "invalid Word document: incorrect magic number"
    else
      match readU16? buffer 0x0A with
      | none => .error "index out of range"
      | some flags =>
        .ok (if flags &&& 0x0200 = 0 then "0Table" else "1Table")

/-! ## Invariants and specification-side definitions -/

/-- The construction invariants of the piece sequence, relative to a base
CP: each piece starts where the previous ended, its recorded length is the
rune count of its text, and its end CP is start plus length. -/
def ValidFrom : Nat → List Piece → Prop
  | _, [] => True
  | s, p :: ps =>
    p.startCp = s ∧ p.length = p.text.length ∧ p.endCp = s + p.text.length ∧
      ValidFrom p.endCp ps

instance : ∀ s ps, Decidable (ValidFrom s ps)
  | _, [] => by unfold ValidFrom; exact inferInstance
  | s, p :: ps =>
    have : Decidable (ValidFrom p.endCp ps) := instDecidableValidFrom p.endCp ps
    by unfold ValidFrom; exact inferInstance

def totalCp (pieces : List Piece) : Nat := (pieces.map (fun p => p.text.length)).sum

/-- Reference slicing: the CP range [s, e) of a list of texts, written as a
structural recursion (equals drop s of take e of the concatenation). -/
def sliceSpec (s e : Nat) : List (List Char) → List Char
  | [] => []
  | t :: ts => ((t.take e).drop s) ++ sliceSpec (s - t.length) (e - t.length) ts

/-- Spec-side story tag (section 4.5 of the spec, claim C5): story s is a
footnote separator when s is below 3, an end separator when s is below 6,
a header when s mod 6 is 0, 1 or 4, and a footer when s mod 6 is 2, 3 or 5. -/
def specStoryTag (s : Nat) : String :=
  if s < 3 then "footnoteSeparators"
  else if s < 6 then "endSeparators"
  else if s % 6 = 0 ∨ s % 6 = 1 ∨ s % 6 = 4 then "headers"
  else "footers"

/-- Spec-side whitespace test: the snapshot holds no character other than
CR, LF and bytes 0x02..0x08. -/
def specWhitespaceOnly (s : List Char) : Prop :=
  ∀ c ∈ s, c = '\x0d' ∨ c = '\x0a' ∨ (0x02 ≤ c.toNat ∧ c.toNat ≤ 0x08)

instance (s : List Char) : Decidable (specWhitespaceOnly s) := by
  unfold specWhitespaceOnly; exact inferInstance

/-- Spec-side header normalization loop: same shape as hdrLoop, with the
tags given by the spec tag rule and the replacement range chosen by the
spec whitespace test (whole story when whitespace-only, else its last CP). -/
def specHdrLoop (offset limit : Nat) :
    Nat → List Piece → Nat → List Nat → List Piece × List TaggedHeader
  | _, pieces, _, [] => (pieces, [])
  | story, pieces, start, cp :: rest =>
    let e := min (offset + cp) limit
    let text := getTextRangeByCP pieces start e
    let pieces2 :=
      if specWhitespaceOnly text then replaceSelectedRange pieces start e ['\x00']
      else replaceSelectedRange pieces (e - 1) e ['\x00']
    let rec2 := specHdrLoop offset limit (story + 1) pieces2 e rest
    (rec2.1, ⟨specStoryTag story, text⟩ :: rec2.2)

/-- Spec-side character substitution of claim C8. -/
def specFilterSub (c : Char) : Char :=
  if c = '\u2002' then ' '
  else if c = '\u2003' then ' '
  else if c = '\u2012' then '-'
  else if c = '\u2013' then '-'
  else if c = '\u2014' then '-'
  else if c = '\u2018' then '\''
  else if c = '\u2019' then '\''
  else if c = '\u201C' then '"'
  else if c = '\u201D' then '"'
  else c

/-! ## Safety predicate for getTextRangeByCP (claim C9)

The Go loop runs i from startPiece to endPiece where an unmatched search
yields len(pieces) - 1 as a signed integer, accesses pieces[i], and slices
runes[xstart:xend]; the runtime requires 0 <= i < len(pieces) and
xstart <= xend for each slice actually taken. -/

def getPieceIndexByCPZ (pieces : List Piece) (position : Nat) : Int :=
  match findPieceIdx position pieces with
  | some i => (i : Int)
  | none => (pieces.length : Int) - 1

/-- The runtime side conditions of one loop iteration of getTextRangeByCP:
the piece index is in bounds, and whenever the rune slice is taken (xstart
below the rune count) its bounds are ordered. -/
def sliceAccessOk (pieces : List Piece) (sp ep : Int) (start e : Nat) (i : Int) : Prop :=
  0 ≤ i ∧ i < (pieces.length : Int) ∧
  (∀ p, pieces[i.toNat]? = some p →
    max (if i = sp then (start : Int) - p.startCp else 0) 0 < (p.text.length : Int) →
    max (if i = sp then (start : Int) - p.startCp else 0) 0
      ≤ min (if i = ep then (e : Int) - p.startCp else (p.length : Int))
          (p.text.length : Int))

/-- Every iteration of the getTextRangeByCP loop stays in bounds. -/
def getTextRangeSafe (pieces : List Piece) (start e : Nat) : Prop :=
  ∀ i : Int, getPieceIndexByCPZ pieces start ≤ i → i ≤ getPieceIndexByCPZ pieces e →
    sliceAccessOk pieces (getPieceIndexByCPZ pieces start) (getPieceIndexByCPZ pieces e) start e i

/-! ## Helper lemmas: sliceSpec versus take and drop -/

lemma take_min_length (t : List Char) (a : Nat) : t.take (min a t.length) = t.take a := by
  rw [List.take_eq_take]
  simp [Nat.min_assoc]

lemma sliceSpec_e_zero (ts : List (List Char)) : ∀ s, sliceSpec s 0 ts = [] := by
  induction ts with
  | nil => intro s; rfl
  | cons t ts ih =>
    intro s
    simp [sliceSpec, ih]

lemma sliceSpec_eq_take_drop (ts : List (List Char)) :
    ∀ s e, sliceSpec s e ts = (ts.flatten.take e).drop s := by
  induction ts with
  | nil => intro s e; simp [sliceSpec]
  | cons t ts ih =>
    intro s e
    simp only [sliceSpec, List.flatten_cons]
    rw [List.take_append_eq_append_take, List.drop_append_eq_append_drop, ih]
    rcases le_or_lt t.length e with h | h
    · have hlen : (t.take e).length = t.length := by
        simp [List.length_take, Nat.min_eq_right h]
      rw [hlen]
    · have he : e - t.length = 0 := by omega
      simp [he, sliceSpec_e_zero]

/-! ## Helper lemmas: piece index search -/

lemma getPieceIndexByCP_cons_le {p : Piece} (ps : List Piece) {pos : Nat}
    (h : pos ≤ p.endCp) : getPieceIndexByCP (p :: ps) pos = 0 := by
  simp [getPieceIndexByCP, findPieceIdx, if_pos h]

lemma getPieceIndexByCP_singleton (p : Piece) (pos : Nat) :
    getPieceIndexByCP [p] pos = 0 := by
  unfold getPieceIndexByCP findPieceIdx
  split <;> simp [findPieceIdx]

lemma getPieceIndexByCP_cons_gt {p q : Piece} {ps : List Piece} {pos : Nat}
    (h : ¬ pos ≤ p.endCp) :
    getPieceIndexByCP (p :: q :: ps) pos = getPieceIndexByCP (q :: ps) pos + 1 := by
  unfold getPieceIndexByCP
  have hstep : findPieceIdx pos (p :: q :: ps) = (findPieceIdx pos (q :: ps)).map (· + 1) := by
    conv_lhs => rw [findPieceIdx]
    rw [if_neg h]
  rw [hstep]
  cases hfi : findPieceIdx pos (q :: ps) with
  | some j => simp [hfi]
  | none => simp [hfi]

/-! ## Characterization of getTextRangeByCP -/

theorem getText_eq_sliceSpec :
    ∀ (ps : List Piece) (b start e : Nat), ValidFrom b ps → start ≤ e →
      getTextRangeByCP ps start e
        = sliceSpec (start - b) (e - b) (ps.map (fun p => p.text)) := by
  intro ps
  induction ps with
  | nil => intro b start e _ _; rfl
  | cons p ps ih =>
    intro b start e hv hse
    obtain ⟨hb, hlen, hend, hvt⟩ := hv
    by_cases hA : e ≤ p.endCp
    · -- whole range inside the first piece
      have hstart : start ≤ p.endCp := le_trans hse hA
      have hsp : getPieceIndexByCP (p :: ps) start = 0 :=
        getPieceIndexByCP_cons_le ps hstart
      have hep : getPieceIndexByCP (p :: ps) e = 0 :=
        getPieceIndexByCP_cons_le ps hA
      simp only [getTextRangeByCP, hsp, hep]
      simp only [Nat.sub_zero, show List.range 1 = [0] from rfl, List.map_cons, List.map_nil,
        List.flatten_cons, List.flatten_nil, List.append_nil, Nat.add_zero, Nat.zero_add]
      simp only [sliceAt, List.getElem?_cons_zero, if_pos rfl]
      simp only [if_true, hb]
      rw [take_min_length]
      simp only [sliceSpec]
      have h0 : e - b - p.text.length = 0 := by omega
      rw [h0, sliceSpec_e_zero, List.append_nil]
      by_cases hg : start - b < p.text.length
      · rw [if_pos hg]
      · rw [if_neg hg]
        symm
        apply List.drop_eq_nil_of_le
        simp only [List.length_take]
        omega
    · -- e lies beyond the first piece
      cases ps with
      | nil =>
        have hsp := getPieceIndexByCP_singleton p start
        have hep := getPieceIndexByCP_singleton p e
        simp only [getTextRangeByCP, hsp, hep]
        simp only [Nat.sub_zero, show List.range 1 = [0] from rfl, List.map_cons, List.map_nil,
          List.flatten_cons, List.flatten_nil, List.append_nil, Nat.add_zero, Nat.zero_add]
        simp only [sliceAt, List.getElem?_cons_zero, if_pos rfl]
        simp only [if_true, hb]
        rw [take_min_length]
        simp only [sliceSpec, List.map_nil, List.append_nil]
        by_cases hg : start - b < p.text.length
        · rw [if_pos hg]
        · rw [if_neg hg]
          symm
          apply List.drop_eq_nil_of_le
          simp only [List.length_take]
          omega
      | cons q ps2 =>
        have hqb : q.startCp = p.endCp := hvt.1
        have hqlen : q.length = q.text.length := hvt.2.1
        have hqend : q.endCp = p.endCp + q.text.length := hvt.2.2.1
        have hvt2 : ValidFrom q.endCp ps2 := hvt.2.2.2
        by_cases hS : start ≤ p.endCp
        · -- the range starts in the first piece and continues into the tail
          have hsp : getPieceIndexByCP (p :: q :: ps2) start = 0 :=
            getPieceIndexByCP_cons_le _ hS
          have hep : getPieceIndexByCP (p :: q :: ps2) e
              = getPieceIndexByCP (q :: ps2) e + 1 := getPieceIndexByCP_cons_gt hA
          have hspT : getPieceIndexByCP (q :: ps2) start = 0 := by
            apply getPieceIndexByCP_cons_le
            omega
          simp only [getTextRangeByCP, hsp, hep, Nat.sub_zero, Nat.zero_add]
          rw [List.range_succ_eq_map]
          simp only [List.map_cons, List.flatten_cons, List.map_map, Function.comp_def,
            Nat.succ_eq_add_one]
          have helem : ∀ k, sliceAt (p :: q :: ps2) 0 (getPieceIndexByCP (q :: ps2) e + 1)
              start e (k + 1) = sliceAt (q :: ps2) 0 (getPieceIndexByCP (q :: ps2) e)
              start e k := by
            intro k
            simp only [sliceAt, List.getElem?_cons_succ]
            cases hqe : (q :: ps2)[k]? with
            | none => rfl
            | some r =>
              have c1 : ¬ (k + 1 = 0) := by omega
              have c2 : (k + 1 = getPieceIndexByCP (q :: ps2) e + 1)
                  ↔ (k = getPieceIndexByCP (q :: ps2) e) := by omega
              simp only [if_neg c1, c2]
              by_cases hk : k = 0
              · subst hk
                have hr : r = q := by
                  rw [List.getElem?_cons_zero] at hqe
                  exact (Option.some_inj.mp hqe).symm
                subst hr
                have h0 : start - r.startCp = 0 := by omega
                simp [h0]
              · simp [if_neg hk]
          have htail : (List.range (getPieceIndexByCP (q :: ps2) e + 1)).map
                (fun k => sliceAt (p :: q :: ps2) 0 (getPieceIndexByCP (q :: ps2) e + 1)
                  start e (k + 1))
              = (List.range (getPieceIndexByCP (q :: ps2) e + 1)).map
                (fun k => sliceAt (q :: ps2) 0 (getPieceIndexByCP (q :: ps2) e) start e k) := by
            simp only [helem]
          rw [htail]
          have hIH := ih p.endCp start e hvt hse
          have hunfold : getTextRangeByCP (q :: ps2) start e
              = ((List.range (getPieceIndexByCP (q :: ps2) e + 1)).map
                  (fun k => sliceAt (q :: ps2) 0 (getPieceIndexByCP (q :: ps2) e)
                    start e k)).flatten := by
            simp only [getTextRangeByCP, hspT, Nat.sub_zero, Nat.zero_add]
          rw [← hunfold, hIH]
          conv_rhs => rw [sliceSpec]
          congr 1
          · simp only [sliceAt, List.getElem?_cons_zero, if_pos rfl,
              if_neg (show ¬ (0 = getPieceIndexByCP (q :: ps2) e + 1) by omega)]
            rw [hb, hlen, min_self]
            simp only [if_true]
            by_cases hg : start - b < p.text.length
            · rw [if_pos hg, List.take_length,
                List.take_of_length_le (show p.text.length ≤ e - b by omega)]
            · rw [if_neg hg]
              symm
              apply List.drop_eq_nil_of_le
              simp only [List.length_take]
              omega
          · rw [hend, ← Nat.sub_sub, ← Nat.sub_sub]
            simp only [List.map_cons]
        · -- the whole window lies in the tail
          have hsp : getPieceIndexByCP (p :: q :: ps2) start
              = getPieceIndexByCP (q :: ps2) start + 1 := getPieceIndexByCP_cons_gt hS
          have hep : getPieceIndexByCP (p :: q :: ps2) e
              = getPieceIndexByCP (q :: ps2) e + 1 := getPieceIndexByCP_cons_gt hA
          simp only [getTextRangeByCP, hsp, hep]
          rw [show getPieceIndexByCP (q :: ps2) e + 1 + 1
                - (getPieceIndexByCP (q :: ps2) start + 1)
              = getPieceIndexByCP (q :: ps2) e + 1
                - getPieceIndexByCP (q :: ps2) start by omega]
          have helem : ∀ k,
              sliceAt (p :: q :: ps2) (getPieceIndexByCP (q :: ps2) start + 1)
                (getPieceIndexByCP (q :: ps2) e + 1) start e
                (getPieceIndexByCP (q :: ps2) start + 1 + k)
              = sliceAt (q :: ps2) (getPieceIndexByCP (q :: ps2) start)
                (getPieceIndexByCP (q :: ps2) e) start e
                (getPieceIndexByCP (q :: ps2) start + k) := by
            intro k
            simp only [sliceAt]
            rw [show getPieceIndexByCP (q :: ps2) start + 1 + k
                = (getPieceIndexByCP (q :: ps2) start + k) + 1 by omega]
            simp only [List.getElem?_cons_succ]
            cases hqe : (q :: ps2)[getPieceIndexByCP (q :: ps2) start + k]? with
            | none => rfl
            | some r =>
              have c1 : (getPieceIndexByCP (q :: ps2) start + k + 1
                    = getPieceIndexByCP (q :: ps2) start + 1)
                  ↔ (getPieceIndexByCP (q :: ps2) start + k
                    = getPieceIndexByCP (q :: ps2) start) := by omega
              have c2 : (getPieceIndexByCP (q :: ps2) start + k + 1
                    = getPieceIndexByCP (q :: ps2) e + 1)
                  ↔ (getPieceIndexByCP (q :: ps2) start + k
                    = getPieceIndexByCP (q :: ps2) e) := by omega
              simp only [c1, c2]
          simp only [helem]
          have hunfold : getTextRangeByCP (q :: ps2) start e
              = ((List.range (getPieceIndexByCP (q :: ps2) e + 1
                    - getPieceIndexByCP (q :: ps2) start)).map
                  (fun k => sliceAt (q :: ps2) (getPieceIndexByCP (q :: ps2) start)
                    (getPieceIndexByCP (q :: ps2) e) start e
                    (getPieceIndexByCP (q :: ps2) start + k))).flatten := rfl
          rw [← hunfold, ih p.endCp start e hvt hse]
          simp only [List.map_cons]
          conv_rhs => rw [sliceSpec]
          have hnil : List.drop (start - b) (List.take (e - b) p.text) = [] := by
            apply List.drop_eq_nil_of_le
            simp only [List.length_take]
            omega
          rw [hnil, List.nil_append, hend, ← Nat.sub_sub, ← Nat.sub_sub]

end WordExtractor

namespace WordExtractor

lemma buildPiece_fields {buffer : List Nat} {sc ss fc tot : Nat} {p : Piece}
    (h : buildPiece buffer sc ss fc tot = some p) :
    p.startCp = sc ∧ p.length = p.text.length ∧ p.endCp = sc + p.text.length := by
  simp only [buildPiece] at h
  repeat' split at h
  all_goals try exact Option.noConfusion h
  all_goals rw [Option.some_inj] at h
  all_goals subst h
  all_goals exact ⟨rfl, rfl, rfl⟩

lemma writePiecesLoop_valid : ∀ (r : Nat) (buffer tbl : List Nat) (pos n x sc ss : Nat)
    (ps : List Piece), writePiecesLoop buffer tbl pos n r x sc ss = .ok ps →
    ValidFrom sc ps := by
  intro r
  induction r with
  | zero =>
    intro buffer tbl pos n x sc ss ps h
    simp only [writePiecesLoop] at h
    rw [show (Except.ok [] : Except String (List Piece)) = .ok [] from rfl] at h
    cases h
    trivial
  | succ r ih =>
    intro buffer tbl pos n x sc ss ps h
    simp only [writePiecesLoop] at h
    split at h
    · rename_i fc lStart lEnd heq
      split at h
      · exact absurd h (by simp)
      · rename_i p hbuild
        split at h
        · rename_i ps2 hrec
          rw [Except.ok.injEq] at h
          subst h
          obtain ⟨h1, h2, h3⟩ := buildPiece_fields hbuild
          exact ⟨h1, h2, h3, ih buffer tbl pos n (x + 1) p.endCp p.endStream ps2 hrec⟩
        · exact absurd h (by simp)
    · exact absurd h (by simp)

end WordExtractor

namespace WordExtractor

lemma writePieces_valid {buffer tableBuffer : List Nat} {ps : List Piece}
    (h : writePieces buffer tableBuffer = .ok ps) : ValidFrom 0 ps := by
  unfold writePieces at h
  repeat' split at h
  all_goals try exact Except.noConfusion h
  exact writePiecesLoop_valid _ _ _ _ _ _ _ _ _ h

lemma validFrom_mem : ∀ {b : Nat} {ps : List Piece}, ValidFrom b ps →
    ∀ p ∈ ps, p.length = p.text.length ∧ p.endCp = p.startCp + p.text.length := by
  intro b ps
  induction ps generalizing b with
  | nil => intro _ p hp; cases hp
  | cons q ps ih =>
    intro hv p hp
    obtain ⟨h1, h2, h3, h4⟩ := hv
    cases hp with
    | head => exact ⟨h2, by rw [h1, h3]⟩
    | tail _ hmem => exact ih h4 p hmem

lemma validFrom_chain : ∀ {b : Nat} {ps : List Piece}, ValidFrom b ps →
    List.Chain' (fun p q => p.endCp = q.startCp) ps := by
  intro b ps
  induction ps generalizing b with
  | nil => intro _; exact List.chain'_nil
  | cons q ps ih =>
    intro hv
    obtain ⟨h1, h2, h3, h4⟩ := hv
    cases ps with
    | nil => exact List.chain'_singleton q
    | cons r ps2 =>
      exact List.Chain'.cons (h4.1.symm) (ih h4)

end WordExtractor

namespace WordExtractor

lemma getText_char {ps : List Piece} (hv : ValidFrom 0 ps) {a b : Nat} (hab : a ≤ b) :
    getTextRangeByCP ps a b = ((fullText ps).take b).drop a := by
  have h := getText_eq_sliceSpec ps 0 a b hv hab
  rw [h, sliceSpec_eq_take_drop]
  simp [fullText]

lemma take_drop_split (T : List Char) (a b c : Nat) (hab : a ≤ b) (hbc : b ≤ c) :
    (T.take c).drop a = (T.take b).drop a ++ (T.take c).drop b := by
  have h1 : T.take b = (T.take c).take b := by
    rw [List.take_take, Nat.min_eq_left hbc]
  rw [h1]
  generalize T.take c = U
  by_cases hbU : b ≤ U.length
  · conv_lhs => rw [← List.take_append_drop b U]
    rw [List.drop_append_eq_append_drop]
    have h2 : a - (U.take b).length = 0 := by
      simp only [List.length_take]
      omega
    rw [h2, List.drop_zero]
  · rw [List.take_of_length_le (by omega),
      show U.drop b = [] from List.drop_eq_nil_of_le (by omega), List.append_nil]

end WordExtractor

namespace WordExtractor

lemma findPieceIdx_lt_length : ∀ {pos : Nat} {ps : List Piece} {i : Nat},
    findPieceIdx pos ps = some i → i < ps.length := by
  intro pos ps
  induction ps with
  | nil => intro i h; simp [findPieceIdx] at h
  | cons q t ih =>
    intro i h
    unfold findPieceIdx at h
    split at h
    · cases h; simp
    · cases hfi : findPieceIdx pos t with
      | none => rw [hfi] at h; simp at h
      | some j =>
        rw [hfi] at h
        simp only [Option.map_some'] at h
        cases h
        have := ih hfi
        simp only [List.length_cons]
        omega

lemma getPieceIndexByCP_lt_length {ps : List Piece} (hne : ps ≠ []) (pos : Nat) :
    getPieceIndexByCP ps pos < ps.length := by
  unfold getPieceIndexByCP
  cases hfi : findPieceIdx pos ps with
  | some j => simpa using findPieceIdx_lt_length hfi
  | none =>
    have : 1 ≤ ps.length := by
      cases ps
      · exact absurd rfl hne
      · simp
    simp only [Option.getD_none]
    omega

lemma getPieceIndexByCPZ_eq_cast {ps : List Piece} (hne : ps ≠ []) (pos : Nat) :
    getPieceIndexByCPZ ps pos = ((getPieceIndexByCP ps pos : Nat) : Int) := by
  unfold getPieceIndexByCPZ getPieceIndexByCP
  cases hfi : findPieceIdx pos ps with
  | some j => simp
  | none =>
    have : 1 ≤ ps.length := by
      cases ps
      · exact absurd rfl hne
      · simp
    simp only [Option.getD_none]
    omega

lemma startCp_le_pos_of_idx : ∀ {bb : Nat} {ps : List Piece} {pos : Nat} {p : Piece},
    ValidFrom bb ps → bb ≤ pos →
    ps[getPieceIndexByCP ps pos]? = some p → p.startCp ≤ pos := by
  intro bb ps
  induction ps generalizing bb with
  | nil => intro pos p _ _ h; simp [getPieceIndexByCP] at h
  | cons q t ih =>
    intro pos p hv hle h
    obtain ⟨h1, _, _, h4⟩ := hv
    by_cases hpos : pos ≤ q.endCp
    · rw [getPieceIndexByCP_cons_le _ hpos] at h
      rw [List.getElem?_cons_zero, Option.some_inj] at h
      subst h
      omega
    · cases t with
      | nil =>
        rw [getPieceIndexByCP_singleton] at h
        rw [List.getElem?_cons_zero, Option.some_inj] at h
        subst h
        omega
      | cons r t2 =>
        rw [getPieceIndexByCP_cons_gt hpos] at h
        rw [List.getElem?_cons_succ] at h
        exact ih h4 (by omega) h

lemma length_eq_of_mem_valid {bb : Nat} {ps : List Piece} (hv : ValidFrom bb ps)
    {i : Nat} {p : Piece} (h : ps[i]? = some p) : p.length = p.text.length :=
  (validFrom_mem hv p (List.getElem?_mem h)).1

end WordExtractor

namespace WordExtractor

lemma getTextRangeSafe_of_valid {ps : List Piece} (hv : ValidFrom 0 ps) (hne : ps ≠ [])
    {a b : Nat} (hab : a ≤ b) : getTextRangeSafe ps a b := by
  intro i hsp hep
  unfold sliceAccessOk
  rw [getPieceIndexByCPZ_eq_cast hne a] at hsp ⊢
  rw [getPieceIndexByCPZ_eq_cast hne b] at hep ⊢
  have hi0 : 0 ≤ i := le_trans (Int.ofNat_nonneg _) hsp
  obtain ⟨iN, rfl⟩ := Int.eq_ofNat_of_zero_le hi0
  have hspN : getPieceIndexByCP ps a ≤ iN := by exact_mod_cast hsp
  have hepN : iN ≤ getPieceIndexByCP ps b := by exact_mod_cast hep
  have hiLen : iN < ps.length := lt_of_le_of_lt hepN (getPieceIndexByCP_lt_length hne b)
  refine ⟨hi0, by exact_mod_cast hiLen, ?_⟩
  intro p hp hguard
  rw [show ((iN : Int)).toNat = iN from Int.toNat_natCast iN] at hp
  have hlenEq : p.length = p.text.length := length_eq_of_mem_valid hv hp
  have hlenEqZ : (p.length : Int) = (p.text.length : Int) := by exact_mod_cast hlenEq
  by_cases hiep : (iN : Int) = ((getPieceIndexByCP ps b : Nat) : Int)
  · have hiepN : iN = getPieceIndexByCP ps b := by exact_mod_cast hiep
    have hble : p.startCp ≤ b := by
      apply startCp_le_pos_of_idx hv (Nat.zero_le b)
      rwa [← hiepN]
    have hbleZ : (p.startCp : Int) ≤ (b : Int) := by exact_mod_cast hble
    have habZ : (a : Int) ≤ (b : Int) := by exact_mod_cast hab
    rw [if_pos hiep] at *
    by_cases hisp : (iN : Int) = ((getPieceIndexByCP ps a : Nat) : Int)
    · rw [if_pos hisp] at hguard ⊢
      omega
    · rw [if_neg hisp] at hguard ⊢
      omega
  · rw [if_neg hiep]
    by_cases hisp : (iN : Int) = ((getPieceIndexByCP ps a : Nat) : Int)
    · rw [if_pos hisp] at hguard ⊢
      omega
    · rw [if_neg hisp] at hguard ⊢
      omega

end WordExtractor

namespace WordExtractor

lemma fillPieceRange_length (p : Piece) (s e : Nat) (c : List Char)
    (h1 : p.length = p.text.length) (hc : c.length = 1)
    (hov1 : p.startCp ≤ e) (hov2 : s ≤ p.startCp + p.length) (hse : s ≤ e) :
    (fillPieceRange p s e c).text.length = p.text.length := by
  simp only [fillPieceRange]
  simp only [List.length_append, List.length_flatten, List.map_replicate,
    List.sum_replicate, smul_eq_mul, List.length_take, List.length_drop, hc]
  rw [h1] at *
  by_cases hg1 : 0 < max s p.startCp - p.startCp <;>
    by_cases hg2 : min e (p.startCp + p.text.length) - p.startCp < p.text.length <;>
      simp only [hg1, hg2, if_true, if_false, List.length_nil, List.length_take,
        List.length_drop, if_pos, if_neg] <;> omega

end WordExtractor

namespace WordExtractor

lemma fillPieceRangeByFilePos_length (p : Piece) (s e : Nat) (c : List Char)
    (hc : c.length = 1) (hbpc : 0 < p.bpc) (hsize : p.size = p.bpc * p.text.length)
    (hov1 : p.startFilePos ≤ e) (hov2 : s ≤ p.startFilePos + p.size) (hse : s ≤ e)
    (hdvd : p.bpc ∣ (max s p.startFilePos - p.startFilePos)) :
    (fillPieceRangeByFilePos p s e c).text.length = p.text.length := by
  simp only [fillPieceRangeByFilePos]
  simp only [List.length_append, List.length_flatten, List.map_replicate,
    List.sum_replicate, smul_eq_mul, List.length_take, List.length_drop, hc]
  have hPle : p.startFilePos ≤ max s p.startFilePos := le_max_right _ _
  have hse2 : max s p.startFilePos ≤ min e (p.startFilePos + p.size) := by
    simp only [le_min_iff, max_le_iff]
    omega
  have hsplit : min e (p.startFilePos + p.size) - p.startFilePos
      = (max s p.startFilePos - p.startFilePos)
        + (min e (p.startFilePos + p.size) - max s p.startFilePos) := by
    omega
  have hdivsplit : (min e (p.startFilePos + p.size) - p.startFilePos) / p.bpc
      = (max s p.startFilePos - p.startFilePos) / p.bpc
        + (min e (p.startFilePos + p.size) - max s p.startFilePos) / p.bpc := by
    rw [hsplit, Nat.add_div_of_dvd_right hdvd]
  have hendle : (min e (p.startFilePos + p.size) - p.startFilePos) / p.bpc
      ≤ p.text.length := by
    have h1 : min e (p.startFilePos + p.size) - p.startFilePos ≤ p.bpc * p.text.length := by
      omega
    calc (min e (p.startFilePos + p.size) - p.startFilePos) / p.bpc
        ≤ (p.bpc * p.text.length) / p.bpc := Nat.div_le_div_right h1
      _ = p.text.length := Nat.mul_div_cancel_left _ hbpc
  have hstart_le : (max s p.startFilePos - p.startFilePos) / p.bpc
      ≤ (min e (p.startFilePos + p.size) - p.startFilePos) / p.bpc :=
    Nat.div_le_div_right (by omega)
  generalize hSI : (max s p.startFilePos - p.startFilePos) / p.bpc = SI
    at hdivsplit hstart_le ⊢
  generalize hEI : (min e (p.startFilePos + p.size) - p.startFilePos) / p.bpc = EI
    at hdivsplit hendle hstart_le ⊢
  generalize hRP : (min e (p.startFilePos + p.size) - max s p.startFilePos) / p.bpc = RP
    at hdivsplit ⊢
  by_cases hg1 : 0 < SI <;>
    by_cases hg2 : EI < p.text.length <;>
      simp only [hg1, hg2, if_true, if_false, List.length_nil, List.length_take,
        List.length_drop, if_pos, if_neg] <;> omega

end WordExtractor

namespace WordExtractor

lemma land_mask_eq_mod {fc : Nat} (hlt : fc < 2 ^ 31) :
    fc &&& 0xBFFFFFFF = fc % 2 ^ 30 := by
  apply Nat.eq_of_testBit_eq
  intro i
  rw [Nat.testBit_and, Nat.testBit_mod_two_pow]
  by_cases hi : i < 30
  · have hm : Nat.testBit 0xBFFFFFFF i = true := by interval_cases i <;> decide
    rw [hm]
    simp [hi, Bool.and_comm]
  · by_cases hi30 : i = 30
    · subst hi30
      simp [show Nat.testBit 0xBFFFFFFF 30 = false from by decide]
    · by_cases hi31 : i = 31
      · subst hi31
        rw [Nat.testBit_lt_two_pow hlt]
        simp
      · have hge : 32 ≤ i := by omega
        have hm : Nat.testBit 0xBFFFFFFF i = false := by
          apply Nat.testBit_lt_two_pow
          calc (0xBFFFFFFF : Nat) < 2 ^ 32 := by norm_num
            _ ≤ 2 ^ i := Nat.pow_le_pow_right (by norm_num) hge
        rw [hm]
        simp [hi]

lemma land_mask_of_bit30 {fc : Nat} (h30 : fc &&& 0x40000000 ≠ 0) (hlt : fc < 2 ^ 31) :
    fc &&& 0xBFFFFFFF = fc - 2 ^ 30 := by
  rw [land_mask_eq_mod hlt]
  have hbit : fc.testBit 30 = true := by
    by_contra hfalse
    apply h30
    apply Nat.eq_of_testBit_eq
    intro i
    rw [Nat.testBit_and]
    by_cases hi : i = 30
    · subst hi
      simp [Bool.eq_false_iff.mpr hfalse]
    · have : Nat.testBit 0x40000000 i = false := by
        by_cases hilt : i < 31
        · interval_cases i <;> simp_all <;> decide
        · apply Nat.testBit_lt_two_pow
          calc (0x40000000 : Nat) < 2 ^ 31 := by norm_num
            _ ≤ 2 ^ i := Nat.pow_le_pow_right (by norm_num) (by omega)
      simp [this]
  have hdm : (fc / 2 ^ 30) % 2 = 1 := by
    have := Nat.testBit_to_div_mod (x := fc) (i := 30)
    rw [hbit] at this
    exact of_decide_eq_true this.symm
  have hq : fc / 2 ^ 30 < 2 := by
    rw [Nat.div_lt_iff_lt_mul (by norm_num)]
    calc fc < 2 ^ 31 := hlt
      _ = 2 ^ 30 * 2 := by norm_num
    -- orientation fixed below if needed
  have hq1 : fc / 2 ^ 30 = 1 := by omega
  have := Nat.div_add_mod fc (2 ^ 30)
  omega

end WordExtractor

namespace WordExtractor

lemma storyTag_eq_spec (s : Nat) : storyTag s = specStoryTag s := by
  unfold storyTag specStoryTag
  by_cases h3 : s < 3
  · simp [h3]
  · by_cases h6 : s < 6
    · simp [h3, h6]
    · have hm : s % 6 = 0 ∨ s % 6 = 1 ∨ s % 6 = 2 ∨ s % 6 = 3 ∨ s % 6 = 4 ∨ s % 6 = 5 := by
        omega
      rcases hm with h | h | h | h | h | h <;> simp [h3, h6, h]

lemma containsNonWhitespace_iff (s : List Char) :
    containsNonWhitespace s = false ↔ specWhitespaceOnly s := by
  unfold containsNonWhitespace specWhitespaceOnly
  rw [List.any_eq_false]
  constructor
  · intro h c hc
    have h2 := h c hc
    by_cases e1 : c = '\x0d'
    · exact Or.inl e1
    by_cases e2 : c = '\x0a'
    · exact Or.inr (Or.inl e2)
    right
    right
    simp [e1, e2] at h2
    exact h2
  · intro h c hc
    have h2 := h c hc
    rcases h2 with h2 | h2 | h2
    · simp [h2]
    · simp [h2]
    · simp [h2.1, h2.2]

end WordExtractor

namespace WordExtractor

lemma hdrLoop_eq_spec (offset limit : Nat) : ∀ (cps : List Nat) (story : Nat)
    (pieces : List Piece) (start : Nat),
    hdrLoop offset limit story pieces start cps
      = specHdrLoop offset limit story pieces start cps := by
  intro cps
  induction cps with
  | nil => intro story pieces start; rfl
  | cons cp rest ih =>
    intro story pieces start
    simp only [hdrLoop, specHdrLoop]
    rw [storyTag_eq_spec]
    have hbr :
        (if !containsNonWhitespace
              (getTextRangeByCP pieces start (min (offset + cp) limit)) then
          replaceSelectedRange pieces start (min (offset + cp) limit) ['\x00']
        else
          replaceSelectedRange pieces (min (offset + cp) limit - 1)
            (min (offset + cp) limit) ['\x00'])
        = (if specWhitespaceOnly
              (getTextRangeByCP pieces start (min (offset + cp) limit)) then
          replaceSelectedRange pieces start (min (offset + cp) limit) ['\x00']
        else
          replaceSelectedRange pieces (min (offset + cp) limit - 1)
            (min (offset + cp) limit) ['\x00']) := by
      by_cases hw : specWhitespaceOnly
          (getTextRangeByCP pieces start (min (offset + cp) limit))
      · rw [if_pos hw, if_pos]
        simp [(containsNonWhitespace_iff _).mpr hw]
      · rw [if_neg hw, if_neg]
        intro hcontra
        apply hw
        apply (containsNonWhitespace_iff _).mp
        simpa using hcontra
    rw [hbr, ih]

lemma hdrLoop_headers_length (offset limit : Nat) : ∀ (cps : List Nat) (story : Nat)
    (pieces : List Piece) (start : Nat),
    (hdrLoop offset limit story pieces start cps).2.length = cps.length := by
  intro cps
  induction cps with
  | nil => intro story pieces start; rfl
  | cons cp rest ih =>
    intro story pieces start
    simp only [hdrLoop, List.length_cons]
    rw [ih]

lemma readCpList_length : ∀ (r : Nat) (plc : List Nat) (i : Nat) (cps : List Nat),
    readCpList plc i r = some cps → cps.length = r := by
  intro r
  induction r with
  | zero =>
    intro plc i cps h
    simp only [readCpList] at h
    cases h
    rfl
  | succ r ih =>
    intro plc i cps h
    simp only [readCpList] at h
    rcases h1 : readU32? plc (i * 4) with _ | cp
    · rw [h1] at h; simp at h
    · rw [h1] at h
      rcases h2 : readCpList plc (i + 1) r with _ | rest
      · rw [h2] at h; simp at h
      · rw [h2] at h
        simp only [Option.some_bind, Option.bind_eq_bind] at h
        rw [Option.some_inj] at h
        subst h
        simp [ih plc (i + 1) rest h2]

end WordExtractor

namespace WordExtractor

lemma normalizeHeadersFn_count {buffer tableBuffer : List Nat} {bnd : Boundaries}
    {pieces : List Piece} {out : List Piece × List TaggedHeader} {lcb : Nat}
    (hlcb : readU32? buffer 0x00F6 = some lcb) (h8 : ¬ lcb < 8)
    (h : normalizeHeadersFn buffer tableBuffer bnd pieces = some out) :
    out.2.length = lcb / 4 - 1 := by
  unfold normalizeHeadersFn at h
  rcases hfc : readU32? buffer 0x00F2 with _ | fc
  · rw [hfc] at h
    simp at h
  · rw [hfc, hlcb] at h
    simp only [Option.some_bind, Option.bind_eq_bind] at h
    rw [if_neg h8] at h
    split at h
    · simp at h
    · rcases hcp0 : readU32? ((tableBuffer.drop fc).take lcb) 0 with _ | cp0
      · rw [hcp0] at h
        simp at h
      · rw [hcp0] at h
        simp only [Option.some_bind] at h
        rcases hcps : readCpList ((tableBuffer.drop fc).take lcb) 1 (lcb / 4 - 1)
          with _ | cps
        · rw [hcps] at h
          simp at h
        · rw [hcps] at h
          simp only [Option.some_bind, Option.some_inj] at h
          subst h
          rw [hdrLoop_headers_length]
          exact readCpList_length _ _ _ _ hcps

end WordExtractor

namespace WordExtractor

lemma filterTable_char (c : Char) :
    (match filterTable c with | some repl => repl | none => [c]) = [specFilterSub c] := by
  unfold filterTable specFilterSub
  split_ifs <;> rfl

lemma filterText_eq_map (s : List Char) : filterText s = s.map specFilterSub := by
  induction s with
  | nil => rfl
  | cons c rest ih =>
    simp only [filterText] at ih ⊢
    rw [List.flatMap_cons, filterTable_char c, ih, List.map_cons, List.singleton_append]

end WordExtractor

namespace WordExtractor

/-! ## Concrete inputs for witnesses and counterexamples -/

/-- A minimal WordDocument stream: UCS-2 text bytes for ab at offset 0, and
the clx pointer at 0x01A2 equal to 0 (the trailing zeros of the replicate). -/
def c1Buffer : List Nat := 0x61 :: 0 :: 0x62 :: 0 :: List.replicate 0x1A2 0

/-- A table stream holding a one-piece piece table: clx type byte 2, size 16,
CP boundaries 0 and 2, descriptor with fc = 0 (UCS-2, offset 0). -/
def c1Table : List Nat := [2, 16, 0, 0, 0, 0, 0, 0, 0, 2, 0, 0, 0, 0, 0, 0, 0, 0, 0, 0, 0]

/-- The piece writePieces builds from c1Buffer and c1Table. -/
def c1Piece : Piece := ⟨0, 0, 2, 0, true, 2, 4, ['a', 'b'], 2, 2, 4, 4⟩

def c2Buffer : List Nat :=
  0x61 :: 0 :: 0x62 :: 0 :: List.replicate 72 0 ++ [2, 0, 0, 0]
    ++ List.replicate 338 0 ++ [0, 0, 0, 0]

def c2Table : List Nat := [2, 16, 0, 0, 0, 0, 0, 0, 0, 2, 0, 0, 0, 0, 0, 0, 0, 0, 0, 0, 0]

def c2Piece : Piece := ⟨0, 0, 2, 0, true, 2, 4, ['a', 'b'], 2, 2, 4, 4⟩

def c2Bnd : Boundaries := ⟨0, 2, 0, 0, 0, 0, 0, 0⟩

def c5Buffer : List Nat := List.replicate 0xF2 0 ++ [0, 0, 0, 0] ++ [8, 0, 0, 0]

def c5Table : List Nat := [0, 0, 0, 0, 1, 0, 0, 0]

def c7Piece1 : Piece := ⟨0, 0, 1, 0, false, 1, 1, ['A'], 1, 1, 1, 1⟩

def c7Piece2 : Piece := ⟨1, 1, 1, 1, false, 1, 1, ['B'], 1, 2, 2, 2⟩

def c9Buffer : List Nat := List.replicate 0x1A6 0

/-- A piece table declaring zero pieces: pieceTableSize 4, so n = 0. -/
def c9Table : List Nat := [2, 4, 0, 0, 0]

def c9wBuffer : List Nat := 0x48 :: List.replicate 0x1A5 0

def c9wTable : List Nat :=
  [2, 16, 0, 0, 0, 0, 0, 0, 0, 1, 0, 0, 0, 0, 0, 0, 0, 0, 64, 0, 0]

def c9wPiece : Piece := ⟨0, 0, 1, 0, false, 1, 1, ['H'], 1, 1, 1, 1⟩

end WordExtractor

namespace WordExtractor

set_option maxRecDepth 100000

/-! ## Claim theorems -/

/-- C1 (counterexample): the claim fails as stated.  writePieces produces
this UCS-2 piece of two code points, and fillPieceRangeByFilePos on the
byte range [1, 2), which is not aligned to Bpc = 2, leaves text of one code
point while EndCp - StartCp is 2: the integer divisions by Bpc make the
replacement substitute fewer code points than it removes. -/
theorem c1_counterexample :
    writePieces c1Buffer c1Table = .ok [c1Piece]
    ∧ (fillPieceRangeByFilePos c1Piece 1 2 ['\x00']).text.length
        ≠ c1Piece.endCp - c1Piece.startCp
    ∧ (fillPieceRangeByFilePos c1Piece 1 2 ['\x00']).text.length = 1
    ∧ c1Piece.endCp - c1Piece.startCp = 2 := by
  exact ⟨by rfl, by decide, by rfl, by rfl⟩

/-- C1 (amended): the rune count of a piece text equals EndCp - StartCp
after construction by writePieces; it is preserved by fillPieceRange for a
single-code-point replacement on an overlapping range, and by
fillPieceRangeByFilePos (hence replaceSelectedRangeByFilePos and
markDeletedRange) when additionally Bpc divides the clipped start offset
relative to StartFilePos - which always holds when Bpc = 1, but can fail
for misaligned byte ranges on Bpc = 2 pieces. -/
theorem c1_amended :
    (∀ (buffer tbl : List Nat) (ps : List Piece), writePieces buffer tbl = .ok ps →
      ∀ p ∈ ps, p.text.length = p.endCp - p.startCp)
    ∧ (∀ (p : Piece) (s e : Nat) (c : List Char),
        p.length = p.text.length → p.endCp = p.startCp + p.length → c.length = 1 →
        p.startCp ≤ e → s ≤ p.startCp + p.length → s ≤ e →
        (fillPieceRange p s e c).text.length
          = (fillPieceRange p s e c).endCp - (fillPieceRange p s e c).startCp)
    ∧ (∀ (p : Piece) (s e : Nat) (c : List Char),
        p.length = p.text.length → p.endCp = p.startCp + p.length → c.length = 1 →
        0 < p.bpc → p.size = p.bpc * p.text.length →
        p.startFilePos ≤ e → s ≤ p.startFilePos + p.size → s ≤ e →
        p.bpc ∣ (max s p.startFilePos - p.startFilePos) →
        (fillPieceRangeByFilePos p s e c).text.length
          = (fillPieceRangeByFilePos p s e c).endCp
            - (fillPieceRangeByFilePos p s e c).startCp) := by
  refine ⟨?_, ?_, ?_⟩
  · intro buffer tbl ps h p hp
    have hv := writePieces_valid h
    have h2 := (validFrom_mem hv p hp).2
    omega
  · intro p s e c h1 h2 hc hov1 hov2 hse
    have hl := fillPieceRange_length p s e c h1 hc hov1 hov2 hse
    have he : (fillPieceRange p s e c).endCp = p.endCp := rfl
    have hs : (fillPieceRange p s e c).startCp = p.startCp := rfl
    rw [hl, he, hs]
    omega
  · intro p s e c h1 h2 hc hbpc hsize hov1 hov2 hse hdvd
    have hl := fillPieceRangeByFilePos_length p s e c hc hbpc hsize hov1 hov2 hse hdvd
    have he : (fillPieceRangeByFilePos p s e c).endCp = p.endCp := rfl
    have hs : (fillPieceRangeByFilePos p s e c).startCp = p.startCp := rfl
    rw [hl, he, hs]
    omega

/-- C1 (witness): the amended claim instantiated.  The construction part at
the concrete one-piece document, fillPieceRange replacing CP range [0, 1)
of that piece, and fillPieceRangeByFilePos replacing the aligned byte range
[0, 2). -/
theorem c1_amended_witness :
    c1Piece.text.length = c1Piece.endCp - c1Piece.startCp
    ∧ (fillPieceRange c1Piece 0 1 ['\x00']).text.length
        = (fillPieceRange c1Piece 0 1 ['\x00']).endCp
          - (fillPieceRange c1Piece 0 1 ['\x00']).startCp
    ∧ (fillPieceRangeByFilePos c1Piece 0 2 ['\x00']).text.length
        = (fillPieceRangeByFilePos c1Piece 0 2 ['\x00']).endCp
          - (fillPieceRangeByFilePos c1Piece 0 2 ['\x00']).startCp := by
  refine ⟨?_, ?_, ?_⟩
  · exact c1_amended.1 c1Buffer c1Table [c1Piece] (by rfl) c1Piece (by simp)
  · exact c1_amended.2.1 c1Piece 0 1 ['\x00'] (by rfl) (by rfl) (by rfl)
      (by decide) (by decide) (by decide)
  · exact c1_amended.2.2 c1Piece 0 2 ['\x00'] (by rfl) (by rfl) (by rfl)
      (by decide) (by rfl) (by decide) (by decide) (by decide) (by decide)

/-- C2: after writePieces succeeds, the first piece starts at CP 0 and each
piece ends where the next starts; and on a valid input - each decoded text
has exactly as many code points as its piece-table CP span, and the piece
table spans exactly the FIB CCP total - the sum of EndCp - StartCp over all
pieces equals CcpText + CcpFtn + CcpHdd + CcpAtn + CcpEdn + CcpTxbx +
CcpHdrTxbx. -/
theorem c2_partition :
    ∀ (buffer tbl : List Nat) (ps : List Piece) (bnd : Boundaries),
      writePieces buffer tbl = .ok ps → boundariesOf buffer = some bnd →
      ((∀ p0, ps.head? = some p0 → p0.startCp = 0)
      ∧ List.Chain' (fun p q => p.endCp = q.startCp) ps
      ∧ ((∀ p ∈ ps, p.text.length = p.totLength) →
          (ps.map (fun p => p.totLength)).sum = ccpSum bnd →
          (ps.map (fun p => p.endCp - p.startCp)).sum = ccpSum bnd)) := by
  intro buffer tbl ps bnd h _
  have hv := writePieces_valid h
  refine ⟨?_, validFrom_chain hv, ?_⟩
  · intro p0 hp0
    cases ps with
    | nil => simp at hp0
    | cons q t =>
      rw [List.head?_cons, Option.some_inj] at hp0
      subst hp0
      exact hv.1
  · intro hlen hsum
    rw [← hsum]
    congr 1
    apply List.map_congr_left
    intro p hp
    have h2 := (validFrom_mem hv p hp).2
    have h3 := hlen p hp
    omega

/-- C2 (witness): the partition conclusions at a concrete one-piece
document whose FIB declares CcpText = 2. -/
theorem c2_partition_witness :
    (List.map (fun p => p.endCp - p.startCp) [c2Piece]).sum = ccpSum c2Bnd
    ∧ (∀ p0, ([c2Piece] : List Piece).head? = some p0 → p0.startCp = 0) := by
  have h := c2_partition c2Buffer c2Table [c2Piece] c2Bnd (by rfl) (by rfl)
  exact ⟨h.2.2 (by decide) (by decide), h.1⟩

/-- C3: the claim fails on the code, which contradicts its own replaceTable.
The first cleanText regex matches 0x1F instead of 0x1E, so the table entry
0x1E to U+2011 is unreachable: cleanText leaves U+001E unchanged instead of
mapping it to the non-breaking hyphen, and deletes U+001F, which no step of
the claimed pipeline touches. -/
theorem c3_cleanText_failing_input :
    cleanText ['\x1e'] = ['\x1e']
    ∧ cleanText ['\x1f'] = []
    ∧ (['\x1e'] : List Char) ≠ ['\u2011'] := by
  exact ⟨by decide, by decide, by decide⟩

end WordExtractor

namespace WordExtractor

set_option maxRecDepth 100000

/-- C4: for every piece descriptor decoded by writePieces (buildPiece is
its loop body): when bit 0x40000000 of fc is set the piece is Windows-1252
with Bpc 1 and byte offset (fc with the bit cleared) / 2 - equal to
(fc - 2^30) / 2 for a 31-bit fc; otherwise it is UCS-2 with Bpc 2 and the
offset is fc unchanged; and the byte size is Bpc times the CP length. -/
theorem c4_descriptor :
    ∀ (buffer : List Nat) (sc ss fc tot : Nat) (p : Piece),
      buildPiece buffer sc ss fc tot = some p →
      ((fc &&& 0x40000000 ≠ 0 →
          p.unicode = false ∧ p.bpc = 1 ∧ p.startFilePos = (fc &&& 0xBFFFFFFF) / 2
            ∧ (fc < 2 ^ 31 → p.startFilePos = (fc - 2 ^ 30) / 2))
      ∧ (fc &&& 0x40000000 = 0 →
          p.unicode = true ∧ p.bpc = 2 ∧ p.startFilePos = fc)
      ∧ p.size = p.bpc * tot) := by
  intro buffer sc ss fc tot p h
  by_cases hbit : fc &&& 0x40000000 ≠ 0
  · simp only [buildPiece, decodeFc, if_pos hbit] at h
    split at h
    · rename_i hft
      exact absurd hft (by decide)
    · split at h
      · exact Option.noConfusion h
      · rw [Option.some_inj] at h
        subst h
        refine ⟨fun _ => ⟨rfl, rfl, rfl, fun hlt => ?_⟩, fun hz => absurd hz hbit, rfl⟩
        show (fc &&& 0xBFFFFFFF) / 2 = (fc - 2 ^ 30) / 2
        rw [land_mask_of_bit30 hbit hlt]
  · simp only [buildPiece, decodeFc, if_neg hbit] at h
    split at h
    · split at h
      · exact Option.noConfusion h
      · rw [Option.some_inj] at h
        subst h
        exact ⟨fun hne => absurd hne hbit, fun _ => ⟨rfl, rfl, rfl⟩, rfl⟩
    · rename_i hft
      exact absurd trivial hft

/-- C4 (witness): both descriptor branches at concrete values: fc with bit
0x40000000 set (Windows-1252, offset (fc - 2^30) / 2 = 1) and fc without it
(UCS-2, offset unchanged). -/
theorem c4_descriptor_witness :
    (∃ p, buildPiece (List.replicate 8 0x41) 0 0 0x40000002 3 = some p
      ∧ p.unicode = false ∧ p.bpc = 1 ∧ p.startFilePos = 1 ∧ p.size = 3)
    ∧ (∃ p, buildPiece (List.replicate 8 0x41) 0 0 2 3 = some p
      ∧ p.unicode = true ∧ p.bpc = 2 ∧ p.startFilePos = 2 ∧ p.size = 6) := by
  constructor
  · refine ⟨⟨0, 0, 3, 1, false, 1, 3, ['A', 'A', 'A'], 3, 3, 3, 4⟩, by rfl, ?_⟩
    have h := c4_descriptor (List.replicate 8 0x41) 0 0 0x40000002 3
      ⟨0, 0, 3, 1, false, 1, 3, ['A', 'A', 'A'], 3, 3, 3, 4⟩ (by rfl)
    have h1 := h.1 (by decide)
    exact ⟨h1.1, h1.2.1, (h1.2.2.2 (by decide)).trans (by decide),
      h.2.2.trans (by decide)⟩
  · refine ⟨⟨0, 0, 3, 2, true, 2, 6, ['\u4141', '\u4141', '\u4141'], 3, 3, 6, 8⟩, by rfl, ?_⟩
    have h := c4_descriptor (List.replicate 8 0x41) 0 0 2 3
      ⟨0, 0, 3, 2, true, 2, 6, ['\u4141', '\u4141', '\u4141'], 3, 3, 6, 8⟩ (by rfl)
    have h2 := h.2.1 (by decide)
    exact ⟨h2.1, h2.2.1, h2.2.2, h.2.2.trans (by decide)⟩

end WordExtractor

namespace WordExtractor

set_option maxRecDepth 100000

/-- C5: the header normalizer story loop coincides with the loop written
from the spec rules - story s is tagged footnoteSeparators when s is below
3, endSeparators when s is below 6, headers when s mod 6 is 0, 1 or 4 and
footers when s mod 6 is 2, 3 or 5, and a story whose pre-replacement
snapshot holds nothing but CR, LF and bytes 0x02..0x08 is NUL-filled over
its whole range while any other story is NUL-filled only over its last CP -
and a PlcfHdd of k = lcbPlcfhdd / 4 entries with lcbPlcfhdd at least 8
produces exactly k - 1 tagged sub-stories. -/
theorem c5_normalizeHeaders :
    (∀ (offset limit story start : Nat) (pieces : List Piece) (cps : List Nat),
      hdrLoop offset limit story pieces start cps
        = specHdrLoop offset limit story pieces start cps)
    ∧ (∀ (buffer tableBuffer : List Nat) (bnd : Boundaries) (pieces : List Piece)
        (out : List Piece × List TaggedHeader) (lcb : Nat),
        readU32? buffer 0x00F6 = some lcb → 8 ≤ lcb →
        normalizeHeadersFn buffer tableBuffer bnd pieces = some out →
        out.2.length = lcb / 4 - 1) := by
  constructor
  · intro offset limit story start pieces cps
    exact hdrLoop_eq_spec offset limit cps story pieces start
  · intro buffer tableBuffer bnd pieces out lcb hlcb h8 h
    exact normalizeHeadersFn_count hlcb (by omega) h

/-- C5 (witness): a two-entry PlcfHdd (lcbPlcfhdd = 8) yields exactly one
tagged sub-story, and the loop equality instantiated at the decoded data. -/
theorem c5_normalizeHeaders_witness :
    hdrLoop 0 0 0 [] 0 [1] = specHdrLoop 0 0 0 [] 0 [1]
    ∧ (([] : List Piece), [(⟨"footnoteSeparators", []⟩ : TaggedHeader)]).2.length
        = 8 / 4 - 1 := by
  constructor
  · exact c5_normalizeHeaders.1 0 0 0 0 [] [1]
  · exact c5_normalizeHeaders.2 c5Buffer c5Table ⟨0, 0, 0, 0, 0, 0, 0, 0⟩ []
      ([], [⟨"footnoteSeparators", []⟩]) 8 (by rfl) (by decide) (by rfl)

/-- C6: in extractWordDocument, when the two bytes at offset 0 do not read
0xA5EC little-endian the extractor fails with the invalid-document error
and produces nothing; otherwise the table stream requested is 1Table
exactly when bit 0x0200 of the 16-bit flags at offset 0x0A is set, and
0Table when it is clear. -/
theorem c6_headerCheck :
    ∀ (buffer : List Nat) (magic flags : Nat),
      readU16? buffer 0 = some magic → readU16? buffer 0x0A = some flags →
      ((magic ≠ 0xA5EC → checkDocumentHeader buffer
          = .error "invalid Word document: incorrect magic number")
      ∧ (magic = 0xA5EC → checkDocumentHeader buffer
          = .ok (if flags &&& 0x0200 ≠ 0 then "1Table" else "0Table"))) := by
  intro buffer magic flags hm hf
  constructor
  · intro hne
    unfold checkDocumentHeader
    simp only [hm]
    rw [if_pos hne]
  · intro he
    subst he
    unfold checkDocumentHeader
    simp only [hm, hf]
    rw [if_neg (by norm_num)]
    by_cases hz : flags &&& 0x0200 = 0
    · have hz2 : ¬ (flags &&& 0x0200 ≠ 0) := by simpa using hz
      rw [if_pos hz, if_neg hz2]
    · rw [if_neg hz, if_pos hz]

/-- C6 (witness): a buffer with valid magic and flags 0x0200 requests
1Table; a buffer with bad magic fails. -/
theorem c6_headerCheck_witness :
    checkDocumentHeader [0xEC, 0xA5, 0, 0, 0, 0, 0, 0, 0, 0, 0x00, 0x02] = .ok "1Table"
    ∧ checkDocumentHeader [0, 0, 0, 0, 0, 0, 0, 0, 0, 0, 0, 0]
        = .error "invalid Word document: incorrect magic number" := by
  constructor
  · have h := (c6_headerCheck [0xEC, 0xA5, 0, 0, 0, 0, 0, 0, 0, 0, 0x00, 0x02]
      0xA5EC 0x0200 (by rfl) (by rfl)).2 rfl
    rw [h, if_pos (show (0x0200 : Nat) &&& 0x0200 ≠ 0 by decide)]
  · exact (c6_headerCheck [0, 0, 0, 0, 0, 0, 0, 0, 0, 0, 0, 0] 0 0
      (by rfl) (by rfl)).1 (by decide)

/-- C7: slicing by CP range is associative on any piece sequence that
satisfies the construction invariants, for a ≤ b ≤ c within the total CP
count. -/
theorem c7_slice_assoc :
    ∀ (ps : List Piece) (a b c : Nat), ValidFrom 0 ps → a ≤ b → b ≤ c →
      c ≤ totalCp ps →
      getTextRangeByCP ps a c = getTextRangeByCP ps a b ++ getTextRangeByCP ps b c := by
  intro ps a b c hv hab hbc _
  rw [getText_char hv (le_trans hab hbc), getText_char hv hab, getText_char hv hbc]
  exact take_drop_split (fullText ps) a b c hab hbc

/-- C7 (witness): associativity at a concrete two-piece sequence with
a, b, c = 0, 1, 2. -/
theorem c7_slice_assoc_witness :
    getTextRangeByCP [c7Piece1, c7Piece2] 0 2
      = getTextRangeByCP [c7Piece1, c7Piece2] 0 1
        ++ getTextRangeByCP [c7Piece1, c7Piece2] 1 2 :=
  c7_slice_assoc [c7Piece1, c7Piece2] 0 1 2 (by decide) (by decide) (by decide)
    (by decide)

/-- C8: GetBody with FilterUnicode applies exactly the claimed character
substitution to the body; with FilterUnicode off it returns the body
verbatim. -/
theorem c8_getBody :
    ∀ (d : Document) (o : Options),
      (o.filterUnicode = true → getBody d (some o) = d.body.map specFilterSub)
      ∧ (o.filterUnicode = false → getBody d (some o) = d.body) := by
  intro d o
  constructor
  · intro h
    unfold getBody
    simp only [Option.getD_some, h, if_true, Filter]
    exact filterText_eq_map d.body
  · intro h
    unfold getBody
    simp [h]

/-- C8 (witness): a body holding a left double quote and a letter is
filtered to a straight quote and the letter, and returned verbatim when
filtering is off. -/
theorem c8_getBody_witness :
    getBody ⟨['\u201C', 'a'], [], [], [], [], [], [], []⟩
        (some ⟨true, true, true, true⟩) = ['"', 'a']
    ∧ getBody ⟨['\u201C', 'a'], [], [], [], [], [], [], []⟩
        (some ⟨false, true, true, true⟩) = ['\u201C', 'a'] := by
  constructor
  · have h := (c8_getBody ⟨['\u201C', 'a'], [], [], [], [], [], [], []⟩
      ⟨true, true, true, true⟩).1 rfl
    rw [h]
    decide
  · exact (c8_getBody ⟨['\u201C', 'a'], [], [], [], [], [], [], []⟩
      ⟨false, true, true, true⟩).2 rfl

/-- C9 (counterexample): the claim fails as stated.  writePieces succeeds
with an empty piece sequence on a piece table declaring zero pieces, and
then getTextRangeByCP(0, 0) runs its loop from index -1 to -1 and reads
pieces[-1]: an out-of-range access, which the safety predicate refutes. -/
theorem c9_counterexample :
    writePieces c9Buffer c9Table = .ok [] ∧ ¬ getTextRangeSafe [] 0 0 := by
  constructor
  · rfl
  · intro h
    have h2 := h (-1) (by decide) (by decide)
    exact absurd h2.1 (by decide)

/-- C9 (amended): for every nonempty piece sequence produced by writePieces
and a ≤ b, every access of getTextRangeByCP is in bounds, and the result is
the document text truncated to [a, min b total): b beyond the last EndCp
just truncates at the end. -/
theorem c9_amended :
    ∀ (buffer tbl : List Nat) (ps : List Piece) (a b : Nat),
      writePieces buffer tbl = .ok ps → ps ≠ [] → a ≤ b →
      getTextRangeSafe ps a b
      ∧ getTextRangeByCP ps a b = ((fullText ps).take b).drop a := by
  intro buffer tbl ps a b h hne hab
  have hv := writePieces_valid h
  exact ⟨getTextRangeSafe_of_valid hv hne hab, getText_char hv hab⟩

/-- C9 (witness): the amended claim at a concrete one-piece Windows-1252
document, with b = 5 beyond the single piece's EndCp = 1: the result
truncates to the whole text. -/
theorem c9_amended_witness :
    getTextRangeSafe [c9wPiece] 0 5
    ∧ getTextRangeByCP [c9wPiece] 0 5 = ((fullText [c9wPiece]).take 5).drop 0 := by
  exact c9_amended c9wBuffer c9wTable [c9wPiece] 0 5 (by rfl) (by decide) (by decide)

end WordExtractor
